import Mathlib

/-!
# Verification of the bdc-backend referral-graph materializer and aggregation engine

Shallow embedding of the core of `brtprivate/bdc-backend`:

* the Mongoose data model (`src/models/User.js`, `src/models/Level.js`,
  `src/models/Investment.js`) becomes plain Lean structures; a database
  state is three lists of documents in insertion order (Mongo's natural
  order for the unordered queries the code issues);
* the blockchain event listener (`src/unnamed/part_010`, class
  `EventListener`: `handleRegistrationEvent`, `handleDepositEvent`,
  `handleTransactionEvent`, `createLevelRelationships`, `getUplineChain`,
  `updateLevelInvestments`, `updateLevelEarnings`) becomes state-passing
  functions `DB → DB`;
* the setup-levels repair route and its helper `createDeeperLevels`
  (`src/routes/userRoutes.js`) becomes a fuel-bounded recursion (the fuel
  is never exhausted before the source's own `currentLevel > 21` guard);
* the aggregation queries of `src/routes/levelRoutes.js` (the
  comprehensive per-user analytics with `performanceMetrics`, and the
  quick summary) and the recursive fallback walk `getUsersAtLevel` of
  `src/routes/referralRoutes.js` become pure functions of the state;
* the in-memory result cache (`src/unnamed/part_011`, `SimpleCache` and
  `CacheManager.cached` plus the `cached: true` flag the stats-direct
  route attaches on a hit) becomes an explicit association-list cache
  with an explicit clock.

Modelling conventions, applied throughout:

* wallet addresses, transaction hashes and cache keys are canonical
  identifiers (`Nat`); the source lowercases every address at each entry
  point, so every stored and queried address is already in canonical
  form and `toLowerCase` is the identity on them;
* monetary amounts are `ℚ` (the source uses JS numbers; binary floating
  point artifacts are outside the scope of these claims, and the
  `toFixed(6)` / `toFixed(2)` display roundings are modelled as exact
  decimal rounding);
* wall-clock timestamps (`registrationTime`, `investmentTime`, deposit
  `timestamp`) are presentational for every claim treated here and are
  omitted from the document structures; the cache, whose TTL expiry is
  semantic, carries an explicit `now : Nat` clock instead;
* Mongoose `findOne` / `find` with no sort read documents in insertion
  order, modelled by `List.find?` / `List.filter` over the list;
  `save` of a new document appends, `save` of a loaded document updates
  it in place.
-/

namespace BDC

/-- Canonical (lowercased) wallet address. -/
abbrev Addr := Nat

/-- `status` field of a User document (`src/models/User.js`). -/
inductive UserStatus
  | active
  | inactive
  | suspended
deriving DecidableEq, Repr

/-- One entry of the `deposits` array of a User document
(`src/models/User.js`): amount, external transaction hash, block number.
The `timestamp` field is omitted (presentational). -/
structure DepositEntry where
  amount : ℚ
  txHash : Nat
  blockNumber : Nat
deriving DecidableEq, Repr

/-- A User document (`src/models/User.js`): wallet address (unique),
nullable referrer address, ordered deposit list, status. -/
structure UserDoc where
  walletAddress : Addr
  referrerAddress : Option Addr
  deposits : List DepositEntry
  status : UserStatus
deriving DecidableEq, Repr

/-- A Level document (`src/models/Level.js`): the materialized
relationship "descendant `userAddress` sits `level` hops below ancestor
`referrerAddress`", with the running totals the materializer maintains.
`registrationTime` is omitted (presentational). -/
structure LevelDoc where
  userAddress : Addr
  referrerAddress : Addr
  level : Nat
  totalInvestment : ℚ
  totalEarnings : ℚ
  isActive : Bool
deriving DecidableEq, Repr

/-- An Investment ledger document (`src/models/Investment.js`):
depositor, amount, globally unique transaction hash, block number.
The `type`, `status` (always created `confirmed` by the listener) and
`investmentTime` fields are omitted: no claim treated here depends on
them. -/
structure InvestmentDoc where
  userAddress : Addr
  amount : ℚ
  txHash : Nat
  blockNumber : Nat
deriving DecidableEq, Repr

/-- The persistent state the core operates on: the User Directory, the
Level Relationship Store and the Investment ledger, each in insertion
order. -/
structure DB where
  users : List UserDoc
  levels : List LevelDoc
  investments : List InvestmentDoc
deriving DecidableEq, Repr

/-- `User.findByWallet` (`src/models/User.js`): `findOne` on the unique
wallet address. -/
def findByWallet (users : List UserDoc) (w : Addr) : Option UserDoc :=
  users.find? fun u => decide (u.walletAddress = w)

/-- Update the first element satisfying `p` (Mongoose: load one document
with `findOne`, mutate it, `save` it back in place). -/
def updateFirst (p : α → Bool) (f : α → α) : List α → List α
  | [] => []
  | x :: xs => if p x then f x :: xs else x :: updateFirst p f xs

/-! ## Graph materializer (`src/unnamed/part_010`, class `EventListener`) -/

/-- `EventListener.getUplineChain(userAddress, maxLevels)`: starting from
`cur`, repeatedly load the user and follow its `referrerAddress` pointer,
collecting each referrer in order; stop after `maxLevels` hops, or as
soon as a user record is missing or has no referrer. -/
def getUplineChain (users : List UserDoc) : Addr → Nat → List Addr
  | _, 0 => []
  | cur, n + 1 =>
    match findByWallet users cur with
    | none => []
    | some u =>
      match u.referrerAddress with
      | none => []
      | some r => r :: getUplineChain users r n

/-- The key test of `Level.findOne({userAddress, referrerAddress, level})`
used by `createLevelRelationships` (no `isActive` condition there). -/
def levelKeyIs (u a : Addr) (l : Nat) (r : LevelDoc) : Prop :=
  r.userAddress = u ∧ r.referrerAddress = a ∧ r.level = l

instance (u a : Addr) (l : Nat) (r : LevelDoc) : Decidable (levelKeyIs u a l r) := by
  unfold levelKeyIs; infer_instance

/-- The body of one iteration of the `createLevelRelationships` loop:
`findOne` on the exact (descendant, ancestor, level) key; when absent,
save a fresh Level document (totals zero, active). -/
def insertLevelIfMissing (db : DB) (u a : Addr) (l : Nat) : DB :=
  match db.levels.find? fun r => decide (levelKeyIs u a l r) with
  | some _ => db
  | none => { db with levels := db.levels ++ [⟨u, a, l, 0, 0, true⟩] }

/-- The `for (let i = 0; i < uplineChain.length && i < 21; i++)` loop of
`EventListener.createLevelRelationships`, written as recursion over the
chain carrying `level = i + 1`: the loop stops when the chain is
exhausted or `level` would pass 21. -/
def insertChain (db : DB) (u : Addr) : List Addr → Nat → DB
  | [], _ => db
  | a :: rest, level =>
    if level ≤ 21 then
      insertChain (insertLevelIfMissing db u a level) u rest (level + 1)
    else db

/-- `EventListener.createLevelRelationships(userAddress, referrerAddress)`:
collect `getUplineChain(referrerAddress, 21)` and insert one Level row
per chain position (level = position + 1) unless that exact key exists. -/
def createLevelRelationships (db : DB) (userAddress referrerAddress : Addr) : DB :=
  insertChain db userAddress (getUplineChain db.users referrerAddress 21) 1

/-- `EventListener.handleRegistrationEvent`: create the user (status
`active`, empty deposits) when unseen, otherwise overwrite the stored
`referrerAddress` with the event's referrer; then run
`createLevelRelationships`. -/
def handleRegistrationEvent (db : DB) (userAddress referrerAddress : Addr) : DB :=
  let db1 :=
    match findByWallet db.users userAddress with
    | none =>
        { db with users := db.users ++ [⟨userAddress, some referrerAddress, [], .active⟩] }
    | some _ =>
        { db with
          users := db.users.map fun x =>
            if x.walletAddress = userAddress then { x with referrerAddress := some referrerAddress }
            else x }
  createLevelRelationships db1 userAddress referrerAddress

/-- `EventListener.updateLevelInvestments(userAddress, amount)`:
`Level.find({userAddress, isActive: true})`, then `addInvestment(amount)`
on each returned row (`levelSchema.methods.addInvestment`). -/
def updateLevelInvestments (db : DB) (userAddress : Addr) (amount : ℚ) : DB :=
  { db with
    levels := db.levels.map fun r =>
      if r.userAddress = userAddress ∧ r.isActive = true then
        { r with totalInvestment := r.totalInvestment + amount }
      else r }

/-- `EventListener.handleDepositEvent`, with the Mongo duplicate-key
rejection of `investment.save()` made explicit in the returned flag.
In source order: (1) find or create the user; (2) `user.addDeposit`
pushes the deposit entry and saves; (3) `investment.save()` — the unique
index on `txHash` (`src/models/Investment.js`) throws a duplicate-key
error when the transaction hash is already in the ledger, the `catch`
logs it, and the rest of the handler is skipped; (4) otherwise
`updateLevelInvestments` propagates the amount.  The `Bool` is `true`
exactly when the duplicate-key error was thrown (and swallowed). -/
def handleDepositEvent (db : DB) (userAddress : Addr) (amount : ℚ) (txHash blockNumber : Nat) :
    DB × Bool :=
  let db1 : DB :=
    match findByWallet db.users userAddress with
    | none => { db with users := db.users ++ [⟨userAddress, none, [], .active⟩] }
    | some _ => db
  let db2 : DB :=
    { db1 with
      users := db1.users.map fun x =>
        if x.walletAddress = userAddress then
          { x with deposits := x.deposits ++ [⟨amount, txHash, blockNumber⟩] }
        else x }
  if db2.investments.any fun inv => decide (inv.txHash = txHash) then (db2, true)
  else
    let db3 := { db2 with investments := db2.investments ++ [⟨userAddress, amount, txHash, blockNumber⟩] }
    (updateLevelInvestments db3 userAddress amount, false)

/-- The key-and-active test of the `Level.findOne` inside
`EventListener.updateLevelEarnings`: descendant = the commission's
source (`fromAddress`), ancestor = the beneficiary (`userAddress`),
exact level, and `isActive: true`. -/
def earnKeyIs (source beneficiary : Addr) (l : Nat) (r : LevelDoc) : Prop :=
  r.userAddress = source ∧ r.referrerAddress = beneficiary ∧ r.level = l ∧ r.isActive = true

instance (s b : Addr) (l : Nat) (r : LevelDoc) : Decidable (earnKeyIs s b l r) := by
  unfold earnKeyIs; infer_instance

/-- `EventListener.updateLevelEarnings(userAddress, fromAddress, amount,
level)`: `findOne` the active relationship keyed (source, beneficiary,
level); when found, `addEarnings(amount)` on it
(`levelSchema.methods.addEarnings`); when not found, do nothing (the
commission is dropped with only a log line). -/
def updateLevelEarnings (db : DB) (beneficiary source : Addr) (amount : ℚ) (level : Nat) : DB :=
  { db with
    levels :=
      updateFirst (fun r => decide (earnKeyIs source beneficiary level r))
        (fun r => { r with totalEarnings := r.totalEarnings + amount }) db.levels }

/-- `EventListener.handleTransactionEvent`: a commission event is exactly
a call to `updateLevelEarnings`. -/
def handleTransactionEvent (db : DB) (userAddress fromAddress : Addr) (value : ℚ) (level : Nat) : DB :=
  updateLevelEarnings db userAddress fromAddress value level

/-! ## Setup-levels repair route (`src/routes/userRoutes.js`) -/

/-- `User.find({referrerAddress, status: 'active'})`: the active direct
referrals of a wallet. -/
def activeDirectReferrals (users : List UserDoc) (w : Addr) : List UserDoc :=
  users.filter fun u => decide (u.referrerAddress = some w ∧ u.status = .active)

/-- The body of one insertion of the setup-levels route and of
`createDeeperLevels`: `findOne` on the exact key, save a fresh row with
explicit zero totals when absent (same key test and same fresh document
as `insertLevelIfMissing`). -/
def createDeeperLevelsFuel (originalReferrer : Addr) : Nat → Addr → DB → Nat → DB
  | 0, _, db, _ => db
  | n + 1, u, db, currentLevel =>
    if 21 < currentLevel then db
    else
      (activeDirectReferrals db.users u).foldl
        (fun s r =>
          createDeeperLevelsFuel originalReferrer n r.walletAddress
            (insertLevelIfMissing s r.walletAddress originalReferrer currentLevel)
            (currentLevel + 1))
        db

/-- `createDeeperLevels(userAddress, originalReferrer, currentLevel)`
(`src/routes/userRoutes.js`): for each active referral of `userAddress`,
insert the (referral, originalReferrer, currentLevel) row when missing,
then recurse into that referral at `currentLevel + 1`; the
`currentLevel > 21` guard stops the recursion.  The fuel `22` is never
exhausted before that guard when the walk starts at level 2 (or at any
level ≥ 1). -/
def createDeeperLevels (db : DB) (userAddress originalReferrer : Addr) (currentLevel : Nat) : DB :=
  createDeeperLevelsFuel originalReferrer 22 userAddress db currentLevel

/-- The `POST /:walletAddress/setup-levels` handler
(`src/routes/userRoutes.js`): 404 (no state change) when the wallet is
unknown; otherwise create a level-1 row for every active direct referral
that lacks one, then run `createDeeperLevels(referral, wallet, 2)` for
each direct referral. -/
def setupLevels (db : DB) (walletAddress : Addr) : DB :=
  match findByWallet db.users walletAddress with
  | none => db
  | some _ =>
    let refs := activeDirectReferrals db.users walletAddress
    let db1 := refs.foldl (fun s r => insertLevelIfMissing s r.walletAddress walletAddress 1) db
    refs.foldl (fun s r => createDeeperLevels s r.walletAddress walletAddress 2) db1

/-! ## Aggregation engine (`src/routes/levelRoutes.js`) -/

/-- `parseFloat(x.toFixed(2))`: exact decimal rounding to 2 places. -/
def round2 (x : ℚ) : ℚ := (round (x * 100) : ℤ) / 100

/-- `parseFloat(x.toFixed(6))`: exact decimal rounding to 6 places. -/
def round6 (x : ℚ) : ℚ := (round (x * 1000000) : ℤ) / 1000000

/-- `Level.find({referrerAddress, isActive: true})`: every active
relationship row whose ancestor side is the queried wallet. -/
def activeRowsFor (db : DB) (w : Addr) : List LevelDoc :=
  db.levels.filter fun r => decide (r.referrerAddress = w ∧ r.isActive = true)

/-- The level values 1..21 the routes iterate over (the `Level` schema
bounds `level` to this range). -/
def levels1to21 : List Nat := (List.range 21).map (· + 1)

/-- The `levelGroups[i]` bucket of the comprehensive analytics route:
the rows of the query at one level. -/
def bucketAt (rows : List LevelDoc) (l : Nat) : List LevelDoc :=
  rows.filter fun r => decide (r.level = l)

/-- `totalTeamSize`: sum over the 21 level buckets of `totalUsers`. -/
def teamSizeOfRows (rows : List LevelDoc) : Nat :=
  (levels1to21.map fun l => (bucketAt rows l).length).sum

/-- `totalTeamInvestment`: sum over the 21 level buckets of each
bucket's summed `totalInvestment`. -/
def teamInvestmentOfRows (rows : List LevelDoc) : ℚ :=
  (levels1to21.map fun l => ((bucketAt rows l).map (·.totalInvestment)).sum).sum

/-- `totalTeamEarnings`: sum over the 21 level buckets of each bucket's
summed `totalEarnings`. -/
def teamEarningsOfRows (rows : List LevelDoc) : ℚ :=
  (levels1to21.map fun l => ((bucketAt rows l).map (·.totalEarnings)).sum).sum

/-- `teamSummary` and `performanceMetrics` of the comprehensive
analytics route `GET /user/:walletAddress` (`src/routes/levelRoutes.js`,
response assembly): the team totals, `activeLevels` (levels with at
least one user), `maxLevel` (`Math.max(...nonEmptyLevels, 0)`), and the
zero-guarded ROI and per-user averages. -/
structure TeamSummary where
  totalTeamSize : Nat
  totalTeamInvestment : ℚ
  totalTeamEarnings : ℚ
  activeLevels : Nat
  maxLevel : Nat
  roi : ℚ
  averageInvestmentPerUser : ℚ
  averageEarningsPerUser : ℚ
deriving DecidableEq, Repr

/-- The summary the comprehensive route computes from the rows of
`Level.find({referrerAddress, isActive: true})`. -/
def teamSummaryOfRows (rows : List LevelDoc) : TeamSummary :=
  let size := teamSizeOfRows rows
  let inv := teamInvestmentOfRows rows
  let earn := teamEarningsOfRows rows
  { totalTeamSize := size
    totalTeamInvestment := round6 inv
    totalTeamEarnings := round6 earn
    activeLevels := (levels1to21.filter fun l => decide (0 < (bucketAt rows l).length)).length
    maxLevel := levels1to21.foldr (fun l m => if 0 < (bucketAt rows l).length then max l m else m) 0
    roi := if 0 < inv then round2 (earn / inv * 100) else 0
    averageInvestmentPerUser := if 0 < size then round6 (inv / (size : ℚ)) else 0
    averageEarningsPerUser := if 0 < size then round6 (earn / (size : ℚ)) else 0 }

/-- `GET /user/:walletAddress` team summary of a wallet. -/
def teamSummary (db : DB) (w : Addr) : TeamSummary :=
  teamSummaryOfRows (activeRowsFor db w)

/-- One document of the `$group`-by-level aggregation of the quick
summary route (one per level actually present, ascending). -/
structure LevelGroupStat where
  level : Nat
  userCount : Nat
  totalInvestment : ℚ
  totalEarnings : ℚ
deriving DecidableEq, Repr

/-- The `Level.aggregate` of `GET /user/:walletAddress/summary`:
match on (ancestor, active), group by level, sort by level ascending.
Level values lie in 1..21 by the schema bounds. -/
def levelGroupsOfRows (rows : List LevelDoc) : List LevelGroupStat :=
  levels1to21.filterMap fun l =>
    let b := bucketAt rows l
    if b.length = 0 then none
    else some ⟨l, b.length, (b.map (·.totalInvestment)).sum, (b.map (·.totalEarnings)).sum⟩

/-- The `quickStats` object of `GET /user/:walletAddress/summary`
(`src/routes/levelRoutes.js`): totals summed over the group documents,
`activeLevels` = number of groups, `maxLevel` =
`Math.max(...levels)` when any group exists else 0, zero-guarded ROI. -/
structure QuickStats where
  totalTeamSize : Nat
  totalTeamInvestment : ℚ
  totalTeamEarnings : ℚ
  activeLevels : Nat
  maxLevel : Nat
  roi : ℚ
deriving DecidableEq, Repr

/-- The `totalTeamInvestment` accumulator of the quick summary route:
sum over the group documents (also the denominator of its ROI guard). -/
def quickTeamInvestmentOfRows (rows : List LevelDoc) : ℚ :=
  ((levelGroupsOfRows rows).map (·.totalInvestment)).sum

/-- The quick summary computed from the rows of the matched query. -/
def quickStatsOfRows (rows : List LevelDoc) : QuickStats :=
  let gs := levelGroupsOfRows rows
  let inv := quickTeamInvestmentOfRows rows
  let earn := (gs.map (·.totalEarnings)).sum
  { totalTeamSize := (gs.map (·.userCount)).sum
    totalTeamInvestment := round6 inv
    totalTeamEarnings := round6 earn
    activeLevels := gs.length
    maxLevel := if 0 < gs.length then (gs.map (·.level)).foldr max 0 else 0
    roi := if 0 < inv then round2 (earn / inv * 100) else 0 }

/-- `GET /user/:walletAddress/summary` quick statistics of a wallet. -/
def quickStats (db : DB) (w : Addr) : QuickStats :=
  quickStatsOfRows (activeRowsFor db w)

/-! ## Fallback recursive walk (`src/routes/referralRoutes.js`) -/

/-- One result entry of the stats-direct `getUsersAtLevel` walk: the
user found at the target level, annotated with its directly summed
Investment ledger total and its deposit count. -/
structure WalkEntry where
  userAddress : Addr
  totalInvestment : ℚ
  depositCount : Nat
deriving DecidableEq, Repr

/-- `investments.reduce((sum, inv) => sum + inv.amount, 0)` over
`Investment.find({userAddress})`: the directly summed ledger total of
one user (no status filter in the source query). -/
def ledgerTotal (db : DB) (w : Addr) : ℚ :=
  ((db.investments.filter fun inv => decide (inv.userAddress = w)).map (·.amount)).sum

/-- The recursive `getUsersAtLevel(currentReferrer, targetLevel,
currentLevel)` of the tree-direct and stats-direct routes, with explicit
fuel: return `[]` past level 21; at the target level, map the active
direct referrals to annotated entries; otherwise expand each active
direct referral one level deeper and concatenate.  The source recursion
needs no fuel (`currentLevel` strictly increases toward the 21 guard);
the wrapper supplies fuel 22, which the guard always preempts. -/
def getUsersAtLevelFuel (db : DB) (targetLevel : Nat) : Nat → Addr → Nat → List WalkEntry
  | 0, _, _ => []
  | fuel + 1, currentReferrer, currentLevel =>
    if 21 < currentLevel then []
    else
      let directRefs := activeDirectReferrals db.users currentReferrer
      if currentLevel = targetLevel then
        directRefs.map fun u => ⟨u.walletAddress, ledgerTotal db u.walletAddress, u.deposits.length⟩
      else
        directRefs.foldl
          (fun acc u => acc ++ getUsersAtLevelFuel db targetLevel fuel u.walletAddress (currentLevel + 1))
          []

/-- `getUsersAtLevel(referrer, targetLevel)` as the routes call it
(`currentLevel = 1`). -/
def getUsersAtLevel (db : DB) (referrer : Addr) (targetLevel : Nat) : List WalkEntry :=
  getUsersAtLevelFuel db targetLevel 22 referrer 1

/-- Distance `t` from `root` to `w` along referral edges through active
users: there is a chain `root → u₁ → ⋯ → u_t = w` where each `uᵢ` is an
active user record whose `referrerAddress` points at its predecessor.
This is the claim's "users whose distance from the referrer along
referral edges is t", refined by the `status: 'active'` filter the
source applies at every hop. -/
inductive ReachesAtDepth (db : DB) : Addr → Addr → Nat → Prop
  | direct {root : Addr} {u : UserDoc} :
      u ∈ db.users → u.status = .active → u.referrerAddress = some root →
      ReachesAtDepth db root u.walletAddress 1
  | step {root mid w : Addr} {t : Nat} :
      ReachesAtDepth db root mid 1 → ReachesAtDepth db mid w t →
      ReachesAtDepth db root w (t + 1)

/-! ## Result cache (`src/unnamed/part_011`) -/

/-- One entry of `SimpleCache`'s `Map`: `{ value, expiry }`. -/
structure CacheEntry (α : Type) where
  value : α
  expiry : Nat
deriving DecidableEq, Repr

/-- `SimpleCache`: an insertion-ordered key/value map with a default TTL
in milliseconds.  Cache keys are the canonical strings
`generateKey` builds, modelled as identifiers. -/
structure SimpleCache (α : Type) where
  entries : List (Nat × CacheEntry α)
  ttl : Nat
deriving DecidableEq, Repr

/-- `SimpleCache.set(key, value, customTtl)`: store `{value, expiry:
now + (customTtl || ttl)}` under the key (`Map.set` replaces an existing
entry in place, otherwise appends). -/
def SimpleCache.setEntry (c : SimpleCache α) (k : Nat) (v : α) (now : Nat)
    (customTtl : Option Nat) : SimpleCache α :=
  let e : CacheEntry α := ⟨v, now + customTtl.getD c.ttl⟩
  { c with
    entries :=
      if c.entries.any fun p => decide (p.1 = k) then
        c.entries.map fun p => if p.1 = k then (k, e) else p
      else c.entries ++ [(k, e)] }

/-- `SimpleCache.get(key)`: `undefined` when absent; when present but
`Date.now() > expiry`, delete the entry and return `undefined`;
otherwise return the stored value unchanged. -/
def SimpleCache.getEntry (c : SimpleCache α) (k : Nat) (now : Nat) :
    Option α × SimpleCache α :=
  match c.entries.find? fun p => decide (p.1 = k) with
  | none => (none, c)
  | some (_, e) =>
    if e.expiry < now then (none, { c with entries := c.entries.filter fun p => !decide (p.1 = k) })
    else (some e.value, c)

/-- `CacheManager.cached(key, asyncFunction, ttl)` combined with the
`cached: true` marker the stats-direct route attaches to a hit
(`src/routes/referralRoutes.js`): on a hit return the stored value and
`true`; on a miss run the computation, store its result, and return it
with `false`. -/
def cachedQuery (c : SimpleCache α) (k : Nat) (now : Nat) (compute : Unit → α)
    (ttl : Option Nat) : α × Bool × SimpleCache α :=
  match SimpleCache.getEntry c k now with
  | (some v, c1) => (v, true, c1)
  | (none, c1) =>
    let r := compute ()
    (r, false, SimpleCache.setEntry c1 k r now ttl)

/-! ## Operation sequences (for the bounded-depth invariant) -/

/-- The write operations of the core: a registration event, a deposit
event, a commission event, and the setup-levels repair route. -/
inductive Op
  | register (user referrer : Addr)
  | deposit (user : Addr) (amount : ℚ) (txHash blockNumber : Nat)
  | commission (beneficiary source : Addr) (amount : ℚ) (level : Nat)
  | setup (walletAddress : Addr)

/-- Apply one operation to the state. -/
def applyOp (db : DB) : Op → DB
  | .register u r => handleRegistrationEvent db u r
  | .deposit u a tx blk => (handleDepositEvent db u a tx blk).1
  | .commission b s a l => handleTransactionEvent db b s a l
  | .setup w => setupLevels db w

/-- Apply a sequence of operations in order. -/
def applyOps (db : DB) (ops : List Op) : DB :=
  ops.foldl applyOp db

/-- Every materialized row has its `level` inside the schema bounds
`[1, 21]`. -/
def levelsInRange (db : DB) : Prop :=
  ∀ r ∈ db.levels, 1 ≤ r.level ∧ r.level ≤ 21

instance (db : DB) : Decidable (levelsInRange db) := by
  unfold levelsInRange; infer_instance

/-! ## General helper lemmas -/

theorem foldl_preserve {β α : Type _} (P : β → Prop) (f : β → α → β)
    (hstep : ∀ s x, P s → P (f s x)) : ∀ (l : List α) (s : β), P s → P (l.foldl f s) := by
  intro l
  induction l with
  | nil => intro s hs; exact hs
  | cons x xs ih => intro s hs; exact ih (f s x) (hstep s x hs)

theorem forall₂_map_self {α β : Type _} (g : α → β) (rel : α → β → Prop)
    (h : ∀ x, rel x (g x)) : ∀ (l : List α), List.Forall₂ rel l (l.map g) := by
  intro l
  induction l with
  | nil => exact List.Forall₂.nil
  | cons x xs ih => exact List.Forall₂.cons (h x) ih

theorem updateFirst_cases {α : Type _} (p : α → Bool) (f : α → α) (L : List α) :
    ((∀ x ∈ L, p x = false) ∧ updateFirst p f L = L)
    ∨ ∃ l1 x l2, L = l1 ++ x :: l2 ∧ (∀ y ∈ l1, p y = false) ∧ p x = true
        ∧ updateFirst p f L = l1 ++ f x :: l2 := by
  induction L with
  | nil => exact Or.inl ⟨by simp, rfl⟩
  | cons x xs ih =>
    by_cases hx : p x = true
    · exact Or.inr ⟨[], x, xs, rfl, by simp, hx, by simp [updateFirst, hx]⟩
    · have hx' : p x = false := by simpa using hx
      rcases ih with ⟨hall, heq⟩ | ⟨l1, y, l2, hL, hl1, hy, heq⟩
      · refine Or.inl ⟨?_, ?_⟩
        · intro z hz
          rcases List.mem_cons.mp hz with rfl | hz
          · exact hx'
          · exact hall z hz
        · simp [updateFirst, hx', heq]
      · refine Or.inr ⟨x :: l1, y, l2, by rw [hL]; rfl, ?_, hy, ?_⟩
        · intro z hz
          rcases List.mem_cons.mp hz with rfl | hz
          · exact hx'
          · exact hl1 z hz
        · simp [updateFirst, hx', heq]

theorem updateFirst_level_mem {p : LevelDoc → Bool} {f : LevelDoc → LevelDoc}
    (hf : ∀ r, (f r).level = r.level) :
    ∀ (L : List LevelDoc), ∀ r' ∈ updateFirst p f L, ∃ r ∈ L, r'.level = r.level := by
  intro L
  induction L with
  | nil => intro r' hr'; cases hr'
  | cons x xs ih =>
    intro r' hr'
    by_cases hx : p x = true
    · simp only [updateFirst, hx, if_true] at hr'
      rcases List.mem_cons.mp hr' with rfl | hr'
      · exact ⟨x, List.mem_cons_self .., hf x⟩
      · exact ⟨r', List.mem_cons_of_mem _ hr', rfl⟩
    · simp only [updateFirst, hx, if_false] at hr'
      rcases List.mem_cons.mp hr' with rfl | hr'
      · exact ⟨r', List.mem_cons_self .., rfl⟩
      · rcases ih r' hr' with ⟨r, hr, he⟩
        exact ⟨r, List.mem_cons_of_mem _ hr, he⟩

/-! ## C3 — deposit propagation over the descendant's relationship rows -/

/-- **C3** (amended): recording a deposit of amount `a` by depositor `D`
adds `a` to the `totalInvestment` of every existing **active**
(`isActive = true`) LevelRelationship row whose descendant side is `D`,
leaves every other row (and every other field) exactly unchanged, and
touches neither the User Directory nor the ledger.  The claim as frozen
omits the `isActive: true` filter of the source query
(`Level.find({userAddress, isActive: true})`); housekeeping does
deactivate rows, so the filter is observable — see the
counterexample. -/
theorem updateLevelInvestments_adds_to_active_descendant_rows
    (db : DB) (d : Addr) (a : ℚ) :
    (updateLevelInvestments db d a).users = db.users
    ∧ (updateLevelInvestments db d a).investments = db.investments
    ∧ List.Forall₂
        (fun r r' =>
          r'.userAddress = r.userAddress ∧ r'.referrerAddress = r.referrerAddress
          ∧ r'.level = r.level ∧ r'.totalEarnings = r.totalEarnings
          ∧ r'.isActive = r.isActive
          ∧ r'.totalInvestment =
              r.totalInvestment + (if r.userAddress = d ∧ r.isActive = true then a else 0))
        db.levels (updateLevelInvestments db d a).levels := by
  refine ⟨rfl, rfl, ?_⟩
  apply forall₂_map_self
  intro r
  by_cases h : r.userAddress = d ∧ r.isActive = true
  · simp [h]
  · simp [h]

/-- The state against which C3 as frozen fails: one relationship row for
descendant 0 that housekeeping has deactivated. -/
def dbInactiveInvRow : DB := ⟨[], [⟨0, 1, 1, 0, 0, false⟩], []⟩

/-- **C3 counterexample**: the store holds exactly one row with
descendant 0 (ancestor 1, level 1, `totalInvestment = 0`, inactive);
a deposit of 5 by user 0 changes nothing at all — in particular the
result is not the store the claim demands, whose row would carry
`totalInvestment = 5`. -/
theorem updateLevelInvestments_skips_inactive_row :
    updateLevelInvestments dbInactiveInvRow 0 5 = dbInactiveInvRow
    ∧ updateLevelInvestments dbInactiveInvRow 0 5 ≠ ⟨[], [⟨0, 1, 1, 5, 0, false⟩], []⟩ := by
  constructor
  · decide
  · decide

/-! ## C4 — commission application -/

/-- **C4** (amended): recording a commission (beneficiary, source,
amount, level) updates the first row of the store matching the
`findOne` condition — key (descendant = source, ancestor = beneficiary,
level) **and `isActive: true`** — by adding the amount to its
`totalEarnings`, leaving every other row and the rest of the state
unchanged; when no active row with that key exists the state is
returned exactly unchanged (the event is dropped, no row is created and
nothing is surfaced to the caller — the handler catches and only logs).
The claim as frozen conditions only on the key existing; the source
also requires `isActive: true` — see the counterexample. -/
theorem updateLevelEarnings_first_active_match_or_drop
    (db : DB) (b s : Addr) (a : ℚ) (l : Nat) :
    (updateLevelEarnings db b s a l).users = db.users
    ∧ (updateLevelEarnings db b s a l).investments = db.investments
    ∧ (((∀ r ∈ db.levels, ¬ earnKeyIs s b l r) ∧ updateLevelEarnings db b s a l = db)
       ∨ ∃ l1 r l2, db.levels = l1 ++ r :: l2
           ∧ (∀ x ∈ l1, ¬ earnKeyIs s b l x) ∧ earnKeyIs s b l r
           ∧ (updateLevelEarnings db b s a l).levels =
               l1 ++ { r with totalEarnings := r.totalEarnings + a } :: l2) := by
  refine ⟨rfl, rfl, ?_⟩
  rcases updateFirst_cases (fun r => decide (earnKeyIs s b l r))
      (fun r => { r with totalEarnings := r.totalEarnings + a }) db.levels with
    ⟨hall, heq⟩ | ⟨l1, r, l2, hL, hl1, hr, heq⟩
  · refine Or.inl ⟨?_, ?_⟩
    · intro r hrm
      have := hall r hrm
      simpa using this
    · show updateLevelEarnings db b s a l = db
      unfold updateLevelEarnings
      rw [heq]
  · refine Or.inr ⟨l1, r, l2, hL, ?_, by simpa using hr, ?_⟩
    · intro x hx
      have := hl1 x hx
      simpa using this
    · show (updateLevelEarnings db b s a l).levels = _
      unfold updateLevelEarnings
      rw [heq]

/-- The state against which C4 as frozen fails: the exact
(descendant = source 3, ancestor = beneficiary 4, level 2) key exists,
but the row is inactive. -/
def dbInactiveEarnRow : DB := ⟨[], [⟨3, 4, 2, 0, 0, false⟩], []⟩

/-- **C4 counterexample**: a commission of 7 to beneficiary 4 from
source 3 at level 2 is dropped even though a row with exactly that key
exists (it is inactive): the state is unchanged, not the state the
claim demands where the row's `totalEarnings` would be 7. -/
theorem updateLevelEarnings_drops_inactive_exact_key :
    dbInactiveEarnRow.levels = [⟨3, 4, 2, 0, 0, false⟩]
    ∧ updateLevelEarnings dbInactiveEarnRow 4 3 7 2 = dbInactiveEarnRow
    ∧ updateLevelEarnings dbInactiveEarnRow 4 3 7 2 ≠ ⟨[], [⟨3, 4, 2, 0, 7, false⟩], []⟩ := by
  refine ⟨rfl, by decide, by decide⟩

/-! ## C1 — materialization on registration (Scenario A) -/

/-- Scenario A's starting state: root R (address 0) already in the User
Directory with no referrer, empty stores. -/
def dbScenarioA : DB := ⟨[⟨0, none, [], .active⟩], [], []⟩

/-- Scenario A after `Registration(U1 = 1, referrer R = 0)` then
`Registration(U2 = 2, referrer U1 = 1)`. -/
def dbScenarioA2 : DB :=
  handleRegistrationEvent (handleRegistrationEvent dbScenarioA 1 0) 2 1

/-- **C1, evaluated at the failing input** (Scenario A): the code
creates exactly one relationship row, (descendant U2, ancestor R,
level 1) — not the three rows (U1,R,1), (U2,U1,1), (U2,R,2) the claim
(and the spec's Scenario A) demands.  The cause:
`createLevelRelationships(user, referrer)` calls
`getUplineChain(referrer)`, whose first collected element is the
*referrer's* referrer, so the direct-referrer row is never created and
every ancestor is attributed one level too close.  The repo's own
setup-levels route and its test-data scripts put a direct referral at
level 1, so the event-listener call is the slip. -/
theorem registration_scenarioA_materializes_only_grandparent_row :
    (dbScenarioA2.levels.map fun r => (r.userAddress, r.referrerAddress, r.level)) = [(2, 0, 1)]
    ∧ (dbScenarioA2.levels.map fun r => (r.userAddress, r.referrerAddress, r.level))
        ≠ [(1, 0, 1), (2, 1, 1), (2, 0, 2)] := by
  constructor
  · decide
  · decide

/-! ## C2 — deposit replay with a duplicate transaction hash -/

/-- Scenario B's starting state: depositor 0 registered, with one
already-materialized active relationship row to ancestor 9 at level 1. -/
def dbScenarioB : DB := ⟨[⟨0, none, [], .active⟩], [⟨0, 9, 1, 0, 0, true⟩], []⟩

/-- Scenario B after the first processing of deposit
(user 0, amount 100, txHash 55, block 7). -/
def scenarioBOnce : DB × Bool := handleDepositEvent dbScenarioB 0 100 55 7

/-- Scenario B after the identical event is processed a second time. -/
def scenarioBTwice : DB × Bool := handleDepositEvent scenarioBOnce.1 0 100 55 7

/-- **C2, evaluated at the failing input** (Scenario B): replaying the
same deposit event, the second call leaves the Investment ledger with
exactly one entry and every relationship `totalInvestment` unchanged
(still 100), and the duplicate-key error is raised — but the
depositor's `User.deposits` list **is** extended again (length 2,
double-counting `getTotalDeposits`), because `user.addDeposit` runs
before the unique-`txHash` insert throws; and the error is caught and
only logged, so nothing is surfaced to the caller.  The claim (and the
spec's "idempotent no-op, not silently merged") says the whole state is
left unchanged. -/
theorem deposit_replay_extends_user_deposits :
    scenarioBOnce.2 = false
    ∧ scenarioBTwice.2 = true
    ∧ scenarioBTwice.1.investments.length = 1
    ∧ scenarioBTwice.1.levels.map (·.totalInvestment) = [100]
    ∧ (findByWallet scenarioBTwice.1.users 0).map (fun u => u.deposits.length) = some 2
    ∧ (findByWallet scenarioBOnce.1.users 0).map (fun u => u.deposits.length) = some 1 := by
  norm_num [scenarioBTwice, scenarioBOnce, dbScenarioB, handleDepositEvent, findByWallet,
    updateLevelInvestments, List.find?]

/-! ## Structural lemmas about the materializer's insertions -/

theorem insertLevelIfMissing_users (db : DB) (u a : Addr) (l : Nat) :
    (insertLevelIfMissing db u a l).users = db.users := by
  unfold insertLevelIfMissing
  cases db.levels.find? fun r => decide (levelKeyIs u a l r) <;> rfl

theorem insertLevelIfMissing_investments (db : DB) (u a : Addr) (l : Nat) :
    (insertLevelIfMissing db u a l).investments = db.investments := by
  unfold insertLevelIfMissing
  cases db.levels.find? fun r => decide (levelKeyIs u a l r) <;> rfl

theorem insertLevelIfMissing_levels (db : DB) (u a : Addr) (l : Nat) :
    (insertLevelIfMissing db u a l).levels = db.levels
    ∨ (insertLevelIfMissing db u a l).levels = db.levels ++ [⟨u, a, l, 0, 0, true⟩] := by
  unfold insertLevelIfMissing
  cases db.levels.find? fun r => decide (levelKeyIs u a l r)
  · exact Or.inr rfl
  · exact Or.inl rfl

theorem insertChain_users (u : Addr) :
    ∀ (c : List Addr) (lv : Nat) (db : DB), (insertChain db u c lv).users = db.users := by
  intro c
  induction c with
  | nil => intro lv db; rfl
  | cons a rest ih =>
    intro lv db
    by_cases h : lv ≤ 21
    · simp only [insertChain, if_pos h]
      rw [ih (lv + 1) (insertLevelIfMissing db u a lv), insertLevelIfMissing_users]
    · simp only [insertChain, if_neg h]

theorem insertChain_investments (u : Addr) :
    ∀ (c : List Addr) (lv : Nat) (db : DB), (insertChain db u c lv).investments = db.investments := by
  intro c
  induction c with
  | nil => intro lv db; rfl
  | cons a rest ih =>
    intro lv db
    by_cases h : lv ≤ 21
    · simp only [insertChain, if_pos h]
      rw [ih (lv + 1) (insertLevelIfMissing db u a lv), insertLevelIfMissing_investments]
    · simp only [insertChain, if_neg h]

/-- Every insertion pass only appends, and every appended row is a
fresh active row for the registered descendant with zero totals. -/
theorem insertChain_appends (u : Addr) :
    ∀ (c : List Addr) (lv : Nat) (db : DB),
      ∃ t, (insertChain db u c lv).levels = db.levels ++ t
        ∧ ∀ row ∈ t, row.userAddress = u ∧ row.totalInvestment = 0
            ∧ row.totalEarnings = 0 ∧ row.isActive = true := by
  intro c
  induction c with
  | nil => intro lv db; exact ⟨[], by simp [insertChain], by simp⟩
  | cons a rest ih =>
    intro lv db
    by_cases h : lv ≤ 21
    · simp only [insertChain, if_pos h]
      rcases ih (lv + 1) (insertLevelIfMissing db u a lv) with ⟨t1, ht1, hall1⟩
      rcases insertLevelIfMissing_levels db u a lv with h0 | h0
      · exact ⟨t1, by rw [ht1, h0], hall1⟩
      · refine ⟨⟨u, a, lv, 0, 0, true⟩ :: t1, ?_, ?_⟩
        · rw [ht1, h0, List.append_assoc]; rfl
        · intro row hrow
          rcases List.mem_cons.mp hrow with rfl | hrow
          · exact ⟨rfl, rfl, rfl, rfl⟩
          · exact hall1 row hrow
    · simp only [insertChain, if_neg h]
      exact ⟨[], by simp, by simp⟩

/-! ## C10 — re-registration overwrites the referrer and only adds rows -/

/-- **C10**: when a registration event arrives for an address already in
the User Directory, the handler overwrites that user's stored
`referrerAddress` with the event's referrer, leaves the ledger alone,
and only ever *appends* relationship rows: the old rows survive as a
prefix, byte-for-byte unchanged (nothing is deleted or deactivated, no
total moves), and every appended row is a fresh active zero-total row
for the re-registered user. -/
theorem reregistration_overwrites_referrer_and_only_adds_rows
    (db : DB) (u r : Addr) (h : (findByWallet db.users u).isSome = true) :
    (handleRegistrationEvent db u r).users =
        (db.users.map fun x =>
          if x.walletAddress = u then { x with referrerAddress := some r } else x)
    ∧ (handleRegistrationEvent db u r).investments = db.investments
    ∧ ∃ t, (handleRegistrationEvent db u r).levels = db.levels ++ t
        ∧ ∀ row ∈ t, row.userAddress = u ∧ row.totalInvestment = 0
            ∧ row.totalEarnings = 0 ∧ row.isActive = true := by
  rcases Option.isSome_iff_exists.mp h with ⟨x, hx⟩
  unfold handleRegistrationEvent
  rw [hx]
  unfold createLevelRelationships
  refine ⟨?_, ?_, ?_⟩
  · rw [insertChain_users]
  · rw [insertChain_investments]
  · exact insertChain_appends u _ 1 _

/-- The concrete state for exercising C10: user 0 already registered
under referrer 1, with one existing relationship row. -/
def dbReRegister : DB :=
  ⟨[⟨0, some 1, [], .active⟩, ⟨1, none, [], .active⟩], [⟨0, 1, 1, 0, 0, true⟩], []⟩

/-- **C10 witness**: the theorem applied at a concrete re-registration
(user 0 switches to referrer 7), its hypothesis discharged by
evaluation. -/
theorem reregistration_frame_witness :
    (handleRegistrationEvent dbReRegister 0 7).users =
        (dbReRegister.users.map fun x =>
          if x.walletAddress = 0 then { x with referrerAddress := some 7 } else x) :=
  (reregistration_overwrites_referrer_and_only_adds_rows dbReRegister 0 7 (by decide)).1

/-! ## C6 — idempotent materialization -/

theorem find?_append_of_some {α : Type _} {p : α → Bool} :
    ∀ {L : List α} {x : α}, L.find? p = some x → ∀ (L' : List α), (L ++ L').find? p = some x := by
  intro L
  induction L with
  | nil => intro x hx; cases hx
  | cons a rest ih =>
    intro x hx L'
    by_cases ha : p a = true
    · rw [List.find?_cons_of_pos _ ha] at hx
      rw [List.cons_append, List.find?_cons_of_pos _ ha]
      exact hx
    · have ha' : ¬ p a = true := ha
      rw [List.find?_cons_of_neg _ ha'] at hx
      rw [List.cons_append, List.find?_cons_of_neg _ ha']
      exact ih hx L'

theorem find?_append_single_of_none {α : Type _} {p : α → Bool} :
    ∀ {L : List α}, L.find? p = none → ∀ {x : α}, p x = true → (L ++ [x]).find? p = some x := by
  intro L
  induction L with
  | nil => intro _ x hx; simp [List.find?_cons_of_pos _ hx]
  | cons a rest ih =>
    intro h x hx
    by_cases ha : p a = true
    · rw [List.find?_cons_of_pos _ ha] at h; cases h
    · rw [List.find?_cons_of_neg _ ha] at h
      rw [List.cons_append, List.find?_cons_of_neg _ ha]
      exact ih h hx

/-- The fresh row inserted for a key satisfies its own key test. -/
theorem levelKey_self (u a : Addr) (l : Nat) :
    (decide (levelKeyIs u a l ⟨u, a, l, 0, 0, true⟩)) = true := by
  simp [levelKeyIs]

theorem insertLevelIfMissing_establishes (db : DB) (u a : Addr) (l : Nat) :
    ((insertLevelIfMissing db u a l).levels.find? fun r => decide (levelKeyIs u a l r)).isSome
      = true := by
  unfold insertLevelIfMissing
  cases h : db.levels.find? fun r => decide (levelKeyIs u a l r) with
  | none =>
    simp only []
    rw [find?_append_single_of_none h (levelKey_self u a l)]
    rfl
  | some x =>
    simp only [h]
    rfl

theorem insertLevelIfMissing_preserves_some (db : DB) (u a : Addr) (l : Nat)
    {p : LevelDoc → Bool} (h : (db.levels.find? p).isSome = true) :
    ((insertLevelIfMissing db u a l).levels.find? p).isSome = true := by
  rcases Option.isSome_iff_exists.mp h with ⟨x, hx⟩
  rcases insertLevelIfMissing_levels db u a l with h0 | h0 <;> rw [h0]
  · exact h
  · rw [find?_append_of_some hx]; rfl

theorem insertLevelIfMissing_of_found {db : DB} {u a : Addr} {l : Nat}
    (h : ((db.levels.find? fun r => decide (levelKeyIs u a l r)).isSome) = true) :
    insertLevelIfMissing db u a l = db := by
  rcases Option.isSome_iff_exists.mp h with ⟨x, hx⟩
  unfold insertLevelIfMissing
  rw [hx]

theorem insertChain_preserves_some (u : Addr) {p : LevelDoc → Bool} :
    ∀ (c : List Addr) (lv : Nat) (db : DB), (db.levels.find? p).isSome = true →
      ((insertChain db u c lv).levels.find? p).isSome = true := by
  intro c
  induction c with
  | nil => intro lv db h; exact h
  | cons a rest ih =>
    intro lv db h
    by_cases hle : lv ≤ 21
    · simp only [insertChain, if_pos hle]
      exact ih (lv + 1) _ (insertLevelIfMissing_preserves_some db u a lv h)
    · simp only [insertChain, if_neg hle]
      exact h

theorem insertChain_idem (u : Addr) :
    ∀ (c : List Addr) (lv : Nat) (db : DB),
      insertChain (insertChain db u c lv) u c lv = insertChain db u c lv := by
  intro c
  induction c with
  | nil => intro lv db; rfl
  | cons a rest ih =>
    intro lv db
    by_cases hle : lv ≤ 21
    · simp only [insertChain, if_pos hle]
      have hkey :
          (((insertChain (insertLevelIfMissing db u a lv) u rest (lv + 1)).levels.find?
            fun r => decide (levelKeyIs u a lv r)).isSome) = true :=
        insertChain_preserves_some u rest (lv + 1) _
          (insertLevelIfMissing_establishes db u a lv)
      rw [insertLevelIfMissing_of_found hkey]
      exact ih (lv + 1) (insertLevelIfMissing db u a lv)
    · simp only [insertChain, if_neg hle]

/-- **C6**: `createLevelRelationships` is idempotent — running the
materialization a second time immediately after the first returns the
state of the first run exactly: no relationship row is added and no
`totalInvestment` or `totalEarnings` moves (the keyed `findOne` before
each insert guarantees it).  Stated as equality of whole states, which
subsumes "no duplicate rows and no change in totals". -/
theorem createLevelRelationships_idempotent (db : DB) (u r : Addr) :
    createLevelRelationships (createLevelRelationships db u r) u r =
      createLevelRelationships db u r := by
  unfold createLevelRelationships
  rw [insertChain_users]
  exact insertChain_idem u _ 1 db

/-! ## C7 — bounded depth under every operation sequence -/

theorem levelsInRange_insert {db : DB} {u a : Addr} {l : Nat}
    (h1 : 1 ≤ l) (h2 : l ≤ 21) (hdb : levelsInRange db) :
    levelsInRange (insertLevelIfMissing db u a l) := by
  intro r hr
  rcases insertLevelIfMissing_levels db u a l with h0 | h0 <;> rw [h0] at hr
  · exact hdb r hr
  · rcases List.mem_append.mp hr with hr | hr
    · exact hdb r hr
    · rcases List.mem_singleton.mp hr with rfl
      exact ⟨h1, h2⟩

theorem levelsInRange_insertChain (u : Addr) :
    ∀ (c : List Addr) (lv : Nat) (db : DB), 1 ≤ lv → levelsInRange db →
      levelsInRange (insertChain db u c lv) := by
  intro c
  induction c with
  | nil => intro lv db _ hdb; exact hdb
  | cons a rest ih =>
    intro lv db h1 hdb
    by_cases hle : lv ≤ 21
    · simp only [insertChain, if_pos hle]
      exact ih (lv + 1) _ (Nat.le_succ_of_le h1) (levelsInRange_insert h1 hle hdb)
    · simp only [insertChain, if_neg hle]
      exact hdb

theorem levelsInRange_registration (db : DB) (u r : Addr) (hdb : levelsInRange db) :
    levelsInRange (handleRegistrationEvent db u r) := by
  unfold handleRegistrationEvent createLevelRelationships
  cases h : findByWallet db.users u <;>
    · simp only [h]
      exact levelsInRange_insertChain u _ 1 _ (le_refl 1) hdb

theorem levelsInRange_updateLevelInvestments (db : DB) (u : Addr) (a : ℚ)
    (hdb : levelsInRange db) : levelsInRange (updateLevelInvestments db u a) := by
  intro r hr
  unfold updateLevelInvestments at hr
  simp only [] at hr
  rcases List.mem_map.mp hr with ⟨r0, hr0, rfl⟩
  by_cases hc : r0.userAddress = u ∧ r0.isActive = true
  · simpa [hc] using hdb r0 hr0
  · simpa [hc] using hdb r0 hr0

theorem levelsInRange_deposit (db : DB) (u : Addr) (a : ℚ) (tx blk : Nat)
    (hdb : levelsInRange db) : levelsInRange (handleDepositEvent db u a tx blk).1 := by
  unfold handleDepositEvent
  cases h : findByWallet db.users u <;>
    · simp only [h]
      by_cases hdup : (db.investments.any fun inv => decide (inv.txHash = tx)) = true
      · simp only [hdup, if_true]
        exact hdb
      · simp only [eq_false_of_ne_true hdup, if_false, Bool.false_eq_true]
        exact levelsInRange_updateLevelInvestments _ u a hdb

theorem levelsInRange_commission (db : DB) (b s : Addr) (a : ℚ) (l : Nat)
    (hdb : levelsInRange db) : levelsInRange (handleTransactionEvent db b s a l) := by
  intro r hr
  unfold handleTransactionEvent updateLevelEarnings at hr
  simp only [] at hr
  rcases updateFirst_level_mem (p := fun r => decide (earnKeyIs s b l r))
      (f := fun r => { r with totalEarnings := r.totalEarnings + a }) (fun _ => rfl)
      db.levels r hr with ⟨r0, hr0, he⟩
  rw [he]
  exact hdb r0 hr0

theorem levelsInRange_cdl (o : Addr) :
    ∀ (fuel : Nat) (cl : Nat), 1 ≤ cl → ∀ (u : Addr) (db : DB), levelsInRange db →
      levelsInRange (createDeeperLevelsFuel o fuel u db cl) := by
  intro fuel
  induction fuel with
  | zero => intro cl _ u db hdb; exact hdb
  | succ n ih =>
    intro cl h1 u db hdb
    by_cases hgt : 21 < cl
    · simp only [createDeeperLevelsFuel, if_pos hgt]
      exact hdb
    · simp only [createDeeperLevelsFuel, if_neg hgt]
      refine foldl_preserve levelsInRange _ ?_ _ db hdb
      intro s x hs
      exact ih (cl + 1) (Nat.le_succ_of_le h1) x.walletAddress _
        (levelsInRange_insert h1 (Nat.le_of_not_lt hgt) hs)

theorem levelsInRange_setup (db : DB) (w : Addr) (hdb : levelsInRange db) :
    levelsInRange (setupLevels db w) := by
  unfold setupLevels
  cases h : findByWallet db.users w
  · exact hdb
  · simp only [h]
    refine foldl_preserve levelsInRange _ ?_ _ _
      (foldl_preserve levelsInRange _ ?_ _ db hdb)
    · intro s x hs
      exact levelsInRange_cdl w 22 2 (by decide) x.walletAddress s hs
    · intro s x hs
      exact levelsInRange_insert (le_refl 1) (by decide) hs

/-- **C7**: under every sequence of registration, deposit, commission
and setup-levels operations, starting from any state whose rows all
have level in [1, 21], every row of every reachable state still has its
level in [1, 21] — no operation ever creates a row with level 0 or
level > 21, however long the actual referrer chain is (the chain walk
is cut at 21 and the deeper-levels recursion at its `> 21` guard). -/
theorem levels_bounded_under_all_ops (ops : List Op) (db : DB)
    (hdb : levelsInRange db) : levelsInRange (applyOps db ops) := by
  refine foldl_preserve levelsInRange applyOp ?_ ops db hdb
  intro s op hs
  cases op with
  | register u r => exact levelsInRange_registration s u r hs
  | deposit u a tx blk => exact levelsInRange_deposit s u a tx blk hs
  | commission b src a l => exact levelsInRange_commission s b src a l hs
  | setup w => exact levelsInRange_setup s w hs

/-- **C7 witness**: the invariant theorem applied to a concrete
operation sequence — a root with a chain of registrations, a deposit, a
commission and a setup-levels run from the empty-levels state — with
the hypothesis discharged by evaluation. -/
theorem levels_bounded_witness :
    levelsInRange
      (applyOps ⟨[⟨0, none, [], .active⟩], [], []⟩
        [.register 1 0, .register 2 1, .deposit 2 5 77 9, .commission 0 2 1 1, .setup 0]) :=
  levels_bounded_under_all_ops _ _ (by decide)

/-! ## C8 — zero-safety of the aggregation computations -/

theorem sum_map_zero {α M : Type _} [AddCommMonoid M] (L : List α) :
    (L.map fun _ => (0 : M)).sum = 0 := by
  induction L with
  | nil => rfl
  | cons x xs ih => simp [ih]

theorem filterMap_none {α β : Type _} (L : List α) :
    (L.filterMap fun _ => (none : Option β)) = [] := by
  induction L with
  | nil => rfl
  | cons x xs ih => simp [ih]

theorem foldr_drop_fst {α β : Type _} (L : List α) (i : β) :
    (L.foldr (fun _ m => m) i) = i := by
  induction L with
  | nil => rfl
  | cons x xs ih => simp [ih]

theorem round2_zero : round2 0 = 0 := by
  simp [round2]

theorem round6_zero : round6 0 = 0 := by
  simp [round6]

/-- The comprehensive team summary of an empty downline query is the
all-zero record. -/
theorem teamSummaryOfRows_nil : teamSummaryOfRows [] = ⟨0, 0, 0, 0, 0, 0, 0, 0⟩ := by
  have hb : ∀ l, bucketAt [] l = [] := fun _ => rfl
  unfold teamSummaryOfRows teamSizeOfRows teamInvestmentOfRows teamEarningsOfRows
  simp [hb, sum_map_zero, round2_zero, round6_zero, foldr_drop_fst]

/-- The quick summary of an empty downline query is the all-zero
record. -/
theorem quickStatsOfRows_nil : quickStatsOfRows [] = ⟨0, 0, 0, 0, 0, 0⟩ := by
  have hg : levelGroupsOfRows [] = [] := by
    unfold levelGroupsOfRows
    simp [bucketAt, filterMap_none]
  have hinv : quickTeamInvestmentOfRows [] = 0 := by
    simp [quickTeamInvestmentOfRows, hg]
  unfold quickStatsOfRows
  rw [hg, hinv]
  simp [round6_zero]

/-- **C8**: the ROI and per-user-average computations of the
comprehensive team summary and the quick summary return 0 whenever
their denominator (the accumulated team investment, respectively the
team size) is 0 — the source guards every division with
`denominator > 0 ? … : 0` — and both summaries of a user with no
active downline rows are the all-zero records (team size 0, investment
0, earnings 0, active levels 0, max level 0, ROI 0).  In this rational
model every computation is total, so no error, NaN or infinity can
arise; the guards are what keeps the JS original from dividing by
zero. -/
theorem aggregation_zero_safety (db : DB) (w : Addr) :
    (teamInvestmentOfRows (activeRowsFor db w) = 0 → (teamSummary db w).roi = 0)
    ∧ (quickTeamInvestmentOfRows (activeRowsFor db w) = 0 → (quickStats db w).roi = 0)
    ∧ ((teamSummary db w).totalTeamSize = 0 →
        (teamSummary db w).averageInvestmentPerUser = 0
        ∧ (teamSummary db w).averageEarningsPerUser = 0)
    ∧ (activeRowsFor db w = [] →
        teamSummary db w = ⟨0, 0, 0, 0, 0, 0, 0, 0⟩ ∧ quickStats db w = ⟨0, 0, 0, 0, 0, 0⟩) := by
  refine ⟨?_, ?_, ?_, ?_⟩
  · intro h
    show (teamSummaryOfRows (activeRowsFor db w)).roi = 0
    unfold teamSummaryOfRows
    simp only [h, lt_irrefl, if_false]
  · intro h
    show (quickStatsOfRows (activeRowsFor db w)).roi = 0
    unfold quickStatsOfRows
    simp only [h, lt_irrefl, if_false]
  · intro h
    have hsize : teamSizeOfRows (activeRowsFor db w) = 0 := h
    constructor
    · show (teamSummaryOfRows (activeRowsFor db w)).averageInvestmentPerUser = 0
      unfold teamSummaryOfRows
      simp only [hsize, lt_irrefl, if_false]
    · show (teamSummaryOfRows (activeRowsFor db w)).averageEarningsPerUser = 0
      unfold teamSummaryOfRows
      simp only [hsize, lt_irrefl, if_false]
  · intro h
    unfold teamSummary quickStats
    rw [h]
    exact ⟨teamSummaryOfRows_nil, quickStatsOfRows_nil⟩

/-! ## C9 — the result cache is a pure memoization layer -/

/-- After `Map.set`, looking the key up finds exactly the entry just
stored (whether it replaced an existing entry or was appended). -/
theorem find?_after_setEntry {α : Type _} (c : SimpleCache α) (k : Nat) (v : α)
    (now : Nat) (ttl : Option Nat) :
    ((SimpleCache.setEntry c k v now ttl).entries.find? fun p => decide (p.1 = k)) =
      some (k, ⟨v, now + ttl.getD c.ttl⟩) := by
  unfold SimpleCache.setEntry
  simp only []
  generalize (⟨v, now + ttl.getD c.ttl⟩ : CacheEntry α) = e
  induction c.entries with
  | nil => simp
  | cons q L ih =>
    by_cases hq : q.1 = k
    · rw [if_pos (by simp [List.any_cons, decide_eq_true hq])]
      rw [List.map_cons, if_pos hq]
      exact List.find?_cons_of_pos _ (by simp)
    · have hany : ((q :: L).any fun p => decide (p.1 = k)) = (L.any fun p => decide (p.1 = k)) := by
        simp [List.any_cons, decide_eq_false hq]
      by_cases hL : (L.any fun p => decide (p.1 = k)) = true
      · rw [if_pos (by rw [hany]; exact hL)]
        rw [List.map_cons, if_neg hq,
          List.find?_cons_of_neg _ (by simp [decide_eq_false hq])]
        rw [if_pos hL] at ih
        exact ih
      · rw [if_neg (by rw [hany]; exact hL)]
        rw [List.cons_append,
          List.find?_cons_of_neg _ (by simp [decide_eq_false hq])]
        rw [if_neg hL] at ih
        exact ih

/-- Reading a key at any time not past the expiry written by `set`
returns the stored value verbatim. -/
theorem getEntry_after_setEntry {α : Type _} (c : SimpleCache α) (k : Nat) (v : α)
    (now : Nat) (ttl : Option Nat) (now2 : Nat) (h : now2 ≤ now + ttl.getD c.ttl) :
    (SimpleCache.getEntry (SimpleCache.setEntry c k v now ttl) k now2).1 = some v := by
  unfold SimpleCache.getEntry
  rw [find?_after_setEntry]
  simp only []
  rw [if_neg (by simpa using Nat.not_lt.mpr h)]

/-- When `get` produces a value, it leaves the cache untouched. -/
theorem getEntry_hit_state {α : Type _} (c : SimpleCache α) (k now : Nat) {v : α}
    (h : (SimpleCache.getEntry c k now).1 = some v) :
    SimpleCache.getEntry c k now = (some v, c) := by
  cases hf : c.entries.find? fun p => decide (p.1 = k) with
  | none =>
    unfold SimpleCache.getEntry at h
    rw [hf] at h
    cases h
  | some q =>
    obtain ⟨k1, e⟩ := q
    unfold SimpleCache.getEntry at h ⊢
    rw [hf] at h ⊢
    dsimp only at h ⊢
    by_cases he : e.expiry < now
    · rw [if_pos he] at h; cases h
    · rw [if_neg he] at h ⊢
      rw [Option.some_inj.mp h]

/-- **C9**: the cache is a pure memoization layer.  A `get` that misses
(no entry for the key, or the entry past its TTL) makes the wrapped
computation run, returns its result with the cached-flag `false`, and
stores the result so that an immediate lookup returns it; a `get` that
hits returns exactly the previously stored value with the cached-flag
`true` and leaves the cache state unchanged; and a stored value is
returned verbatim by any lookup within its TTL — the cache never
alters it. -/
theorem cache_memoization_correct {α : Type _} (c : SimpleCache α) (k now : Nat)
    (compute : Unit → α) (ttl : Option Nat) :
    ((SimpleCache.getEntry c k now).1 = none →
        (cachedQuery c k now compute ttl).1 = compute ()
        ∧ (cachedQuery c k now compute ttl).2.1 = false
        ∧ (SimpleCache.getEntry (cachedQuery c k now compute ttl).2.2 k now).1
            = some (compute ()))
    ∧ (∀ v, (SimpleCache.getEntry c k now).1 = some v →
        cachedQuery c k now compute ttl = (v, true, c))
    ∧ (∀ (v : α) (now2 : Nat), now2 ≤ now + ttl.getD c.ttl →
        (SimpleCache.getEntry (SimpleCache.setEntry c k v now ttl) k now2).1 = some v) := by
  refine ⟨?_, ?_, ?_⟩
  · intro h
    rcases hE : SimpleCache.getEntry c k now with ⟨o, c1⟩
    rw [hE] at h
    cases o with
    | some v => cases h
    | none =>
      have hq : cachedQuery c k now compute ttl =
          (compute (), false, SimpleCache.setEntry c1 k (compute ()) now ttl) := by
        unfold cachedQuery
        rw [hE]
      rw [hq]
      exact ⟨rfl, rfl,
        getEntry_after_setEntry c1 k (compute ()) now ttl now (Nat.le_add_right _ _)⟩
  · intro v h
    unfold cachedQuery
    rw [getEntry_hit_state c k now h]
  · intro v now2 h
    exact getEntry_after_setEntry c k v now ttl now2 h

/-! ## C5 — the fallback recursive walk -/

theorem reaches_zero {db : DB} {r w : Addr} : ¬ ReachesAtDepth db r w 0 := by
  intro h
  cases h

theorem reaches_one_iff {db : DB} {r w : Addr} :
    ReachesAtDepth db r w 1 ↔
      ∃ u ∈ db.users, u.status = .active ∧ u.referrerAddress = some r
        ∧ u.walletAddress = w := by
  constructor
  · intro h
    cases h with
    | direct hm hs hr => exact ⟨_, hm, hs, hr, rfl⟩
    | step h1 h2 => exact absurd h2 reaches_zero
  · rintro ⟨u, hm, hs, hr, hw⟩
    exact hw ▸ ReachesAtDepth.direct hm hs hr

theorem reaches_succ_iff {db : DB} {r w : Addr} {t : Nat} (ht : 1 ≤ t) :
    ReachesAtDepth db r w (t + 1) ↔
      ∃ c, ReachesAtDepth db r c 1 ∧ ReachesAtDepth db c w t := by
  constructor
  · intro h
    cases h with
    | direct hm hs hr => omega
    | step h1 h2 => exact ⟨_, h1, h2⟩
  · rintro ⟨c, h1, h2⟩
    exact ReachesAtDepth.step h1 h2

theorem foldl_append_bind {α β : Type _} (g : α → List β) (L : List α) :
    ∀ init, L.foldl (fun acc x => acc ++ g x) init = init ++ L.flatMap g := by
  induction L with
  | nil => intro init; simp
  | cons x xs ih => intro init; rw [List.foldl_cons, ih, List.flatMap_cons, List.append_assoc]

theorem bind_const_nil {α β : Type _} (L : List α) :
    (L.flatMap fun _ => ([] : List β)) = [] := by
  induction L with
  | nil => rfl
  | cons x xs ih => simp [ih]

/-- The walk returns nothing when asked for a level past 21: its
`currentLevel > 21` guard fires before `currentLevel` can ever reach
the target. -/
theorem walk_empty_past21 (db : DB) (target : Nat) (hgt : 21 < target) :
    ∀ (fuel : Nat) (cur : Addr) (cl : Nat),
      getUsersAtLevelFuel db target fuel cur cl = [] := by
  intro fuel
  induction fuel with
  | zero => intro cur cl; rfl
  | succ n ih =>
    intro cur cl
    simp only [getUsersAtLevelFuel]
    by_cases h : 21 < cl
    · rw [if_pos h]
    · rw [if_neg h, if_neg (show ¬ cl = target by omega), foldl_append_bind]
      simp only [List.nil_append]
      have : ∀ u : UserDoc,
          getUsersAtLevelFuel db target n u.walletAddress (cl + 1) = [] := fun u => ih _ _
      calc ((activeDirectReferrals db.users cur).flatMap
              fun u => getUsersAtLevelFuel db target n u.walletAddress (cl + 1))
          = (activeDirectReferrals db.users cur).flatMap fun _ => [] := by
            apply List.flatMap_congr
            intro u _
            exact this u
        _ = [] := bind_const_nil _

/-- Every entry the walk emits is annotated with exactly the directly
summed ledger total of its user. -/
theorem walk_annotated (db : DB) (target : Nat) :
    ∀ (fuel : Nat) (cur : Addr) (cl : Nat),
      ∀ e ∈ getUsersAtLevelFuel db target fuel cur cl,
        e.totalInvestment = ledgerTotal db e.userAddress := by
  intro fuel
  induction fuel with
  | zero => intro cur cl e he; cases he
  | succ n ih =>
    intro cur cl e he
    simp only [getUsersAtLevelFuel] at he
    by_cases h : 21 < cl
    · rw [if_pos h] at he; cases he
    · rw [if_neg h] at he
      by_cases heq : cl = target
      · rw [if_pos heq] at he
        rcases List.mem_map.mp he with ⟨u, _, rfl⟩
        rfl
      · rw [if_neg heq, foldl_append_bind] at he
        simp only [List.nil_append] at he
        rcases List.mem_flatMap.mp he with ⟨u, _, he⟩
        exact ih u.walletAddress (cl + 1) e he

/-- The walk's membership characterization, generalized over the
current level and the remaining fuel. -/
theorem walk_mem (db : DB) (target : Nat) :
    ∀ (fuel curLevel : Nat) (cur w : Addr),
      curLevel ≤ target → target ≤ 21 → target < curLevel + fuel →
      ((w ∈ (getUsersAtLevelFuel db target fuel cur curLevel).map (·.userAddress)) ↔
        ReachesAtDepth db cur w (target - curLevel + 1)) := by
  intro fuel
  induction fuel with
  | zero =>
    intro curLevel cur w h1 h2 h3
    omega
  | succ n ih =>
    intro curLevel cur w h1 h2 h3
    simp only [getUsersAtLevelFuel]
    rw [if_neg (show ¬ 21 < curLevel by omega)]
    by_cases heq : curLevel = target
    · rw [if_pos heq]
      have ht : target - curLevel + 1 = 1 := by omega
      rw [ht, reaches_one_iff]
      rw [List.map_map]
      constructor
      · intro hmem
        rcases List.mem_map.mp hmem with ⟨u, hu, hw⟩
        rcases List.mem_filter.mp hu with ⟨hmem0, hcond⟩
        have hc := of_decide_eq_true hcond
        exact ⟨u, hmem0, hc.2, hc.1, hw⟩
      · rintro ⟨u, hmem0, hs, hr, hw⟩
        apply List.mem_map.mpr
        refine ⟨u, List.mem_filter.mpr ⟨hmem0, decide_eq_true ⟨hr, hs⟩⟩, hw⟩
    · rw [if_neg heq, foldl_append_bind]
      simp only [List.nil_append]
      have hlt : curLevel < target := Nat.lt_of_le_of_ne h1 heq
      have hd : target - curLevel + 1 = (target - (curLevel + 1) + 1) + 1 := by omega
      rw [hd, reaches_succ_iff (by omega)]
      rw [List.map_flatMap]
      constructor
      · intro hmem
        rcases List.mem_flatMap.mp hmem with ⟨u, hu, hw⟩
        rcases List.mem_filter.mp hu with ⟨hmem0, hcond⟩
        have hc := of_decide_eq_true hcond
        refine ⟨u.walletAddress, ReachesAtDepth.direct hmem0 hc.2 hc.1, ?_⟩
        exact (ih (curLevel + 1) u.walletAddress w (by omega) h2 (by omega)).mp hw
      · rintro ⟨c, h1', h2'⟩
        rcases reaches_one_iff.mp h1' with ⟨u, hmem0, hs, hr, hwc⟩
        apply List.mem_flatMap.mpr
        refine ⟨u, List.mem_filter.mpr ⟨hmem0, decide_eq_true ⟨hr, hs⟩⟩, ?_⟩
        apply (ih (curLevel + 1) u.walletAddress w (by omega) h2 (by omega)).mpr
        rw [hwc]
        exact h2'

/-- **C5** (amended): for a target level `t` in [1, 21],
`getUsersAtLevel(referrer, t)` returns exactly the users reachable from
the referrer by a chain of `t` referral edges **through active-status
users** (the source filters `status: 'active'` at every hop, which the
claim as frozen omits — see the counterexample), each entry annotated
with the directly summed Investment-ledger total of its user; and for
`t > 21` the walk returns nothing — it never recurses past depth 21
(its `currentLevel > 21` guard). -/
theorem getUsersAtLevel_active_depth_characterization (db : DB) (referrer : Addr) (t : Nat) :
    (∀ w, 1 ≤ t → t ≤ 21 →
      ((w ∈ (getUsersAtLevel db referrer t).map (·.userAddress)) ↔
        ReachesAtDepth db referrer w t))
    ∧ (∀ e ∈ getUsersAtLevel db referrer t, e.totalInvestment = ledgerTotal db e.userAddress)
    ∧ (21 < t → getUsersAtLevel db referrer t = []) := by
  refine ⟨?_, ?_, ?_⟩
  · intro w h1 h2
    have := walk_mem db t 22 1 referrer w h1 h2 (by omega)
    rwa [show t - 1 + 1 = t by omega] at this
  · exact walk_annotated db t 22 referrer 1
  · intro hgt
    exact walk_empty_past21 db t hgt 22 referrer 1

/-- The state against which C5 as frozen fails: user 1 sits at distance
1 from referrer 0 along referral edges, but its status is inactive. -/
def dbInactiveWalkUser : DB :=
  ⟨[⟨0, none, [], .active⟩, ⟨1, some 0, [], .inactive⟩], [], []⟩

/-- **C5 counterexample**: user 1 is at referral-edge distance 1 from
referrer 0 in the directory, yet `getUsersAtLevel(0, 1)` returns no
users, because the walk only expands and returns `status: 'active'`
users. -/
theorem getUsersAtLevel_misses_inactive_user :
    dbInactiveWalkUser.users.map (fun u => (u.walletAddress, u.referrerAddress)) =
        [(0, none), (1, some 0)]
    ∧ getUsersAtLevel dbInactiveWalkUser 0 1 = [] := by
  constructor
  · decide
  · decide

end BDC
